import Mathlib

/-!
Shallow embedding of the Formlabs materials-guide data pipeline
(`src/app/page.tsx`): the category tree builder, the two category
indices, the catalog normalizer and the selection derivations, with
theorems settling the specification claims.

Modelling conventions:
* JavaScript numbers are modelled as `JsNumber` (a rational or NaN);
  the raw JSON values that can appear in a `layer_thickness_mm` slot
  are modelled as `JsVal` (a JSON value together with the result the
  JavaScript `Number(...)` coercion has on it).
* `Map` and plain-object dictionaries are modelled as insertion-ordered
  association lists; `Set` as an insertion-ordered duplicate-free list.
* `Array.prototype.sort` with a comparator is modelled as a stable
  insertion sort over the boolean relation the comparator induces.
* JavaScript numeral formatting (`String(n)`, template literals) is
  modelled by `numToString`; locale-aware string comparison
  (`localeCompare`) is modelled by code-point order on strings.
-/

/-- A JavaScript number: a finite value (modelled as a rational) or NaN. -/
inductive JsNumber : Type where
  | num (q : ℚ)
  | nan
deriving DecidableEq, Repr

/-- A raw JSON value that can sit in a `layer_thickness_mm` field of the
bundled dataset, annotated with how `Number(...)` coerces it: a number,
a string that parses to a number, a string that does not, `null`, or a
boolean. -/
inductive JsVal : Type where
  | num (q : ℚ)
  | strNum (s : String) (q : ℚ)
  | strNaN (s : String)
  | nullV
  | boolV (b : Bool)
deriving DecidableEq, Repr

/-- The JavaScript `Number(...)` coercion applied to a raw JSON value. -/
def toNumber : JsVal → JsNumber
  | .num q => .num q
  | .strNum _ q => .num q
  | .strNaN _ => .nan
  | .nullV => .num 0
  | .boolV b => .num (if b then 1 else 0)

/-- SameValueZero equality, the key equality used by JavaScript `Map`:
NaN is equal to NaN. -/
def nEq : JsNumber → JsNumber → Bool
  | .num a, .num b => a == b
  | .nan, .nan => true
  | _, _ => false

/-- `String(n)` on a JavaScript number (numeral formatting abstracted by
the canonical rational rendering, which is injective on finite values). -/
def numToString : JsNumber → String
  | .num q => toString q
  | .nan => "NaN"

/-- An entry of a taxonomy leaf array: a string code or a non-string value. -/
inductive TaxEntry : Type where
  | str (s : String)
  | nonStr
deriving DecidableEq, Repr

/-- The string carried by a taxonomy array entry, if any. -/
def TaxEntry.toStr : TaxEntry → Option String
  | .str s => some s
  | .nonStr => none

/-- A value of the nested taxonomy document: an array of entries, a nested
object (an ordered list of key/value fields), or any other JSON value. -/
inductive TaxVal : Type where
  | arr (entries : List TaxEntry)
  | obj (fields : List (String × TaxVal))
  | other
deriving Repr

/-- `Set.add` on an insertion-ordered string set: append the element
unless already present. -/
def addLabel (ls : List String) (l : String) : List String :=
  if l ∈ ls then ls else ls ++ [l]

/-- `dedupe` from the source: `Array.from(new Set(items))`, i.e. keep the
first occurrence of each element, in order. -/
def dedupe (items : List String) : List String :=
  items.foldl addLabel []

/-- `charAt(0).toUpperCase() + slice(1)` on a segment. -/
def capitalizeStr (s : String) : String :=
  match s.data with
  | [] => ""
  | c :: cs => String.mk (Char.toUpper c :: cs)

/-- Splitting a character list at every separator character, keeping empty
segments (the behaviour of `split(/[-_]/)`). -/
def splitSegs (p : Char → Bool) : List Char → List (List Char)
  | [] => [[]]
  | c :: cs =>
      if p c then [] :: splitSegs p cs
      else
        match splitSegs p cs with
        | [] => [[c]]
        | seg :: rest => (c :: seg) :: rest

/-- `humanizeKey` from the source: split on `-`/`_`, drop empty segments,
capitalize each segment, join with spaces. -/
def humanizeKey (key : String) : String :=
  String.intercalate " "
    ((((splitSegs (fun c => c == '-' || c == '_') key.data).map String.mk).filter
      (fun s => s != "")).map capitalizeStr)

/-- A node of the category tree (`CategoryNode` in the source): id, display
label, aggregated codes, own codes, children. -/
inductive CategoryNode : Type where
  | mk (id : String) (label : String) (codes : List String)
      (ownCodes : List String) (children : List CategoryNode)
deriving Repr

def CategoryNode.id : CategoryNode → String
  | .mk i _ _ _ _ => i

def CategoryNode.label : CategoryNode → String
  | .mk _ l _ _ _ => l

def CategoryNode.codes : CategoryNode → List String
  | .mk _ _ c _ _ => c

def CategoryNode.ownCodes : CategoryNode → List String
  | .mk _ _ _ o _ => o

def CategoryNode.children : CategoryNode → List CategoryNode
  | .mk _ _ _ _ ch => ch

mutual

/-- The body of `buildCategoryTree` from the source, on the fields of an
object: maps each field to the node `buildEntry` builds for it. -/
def buildForest : List (String × TaxVal) → List String → List CategoryNode
  | [], _ => []
  | (key, value) :: rest, path => buildEntry key value path :: buildForest rest path

/-- The node `buildCategoryTree` builds for one key/value field: an array
value yields a leaf (own = aggregated = deduplicated string entries); any
other value yields a branch whose children come from recursing into the
value (empty when the value is not an object) and whose aggregated codes
are the deduplicated concatenation of the children's. -/
def buildEntry (key : String) (value : TaxVal) (path : List String) : CategoryNode :=
  let currentPath := path ++ [key]
  let id := String.intercalate "/" currentPath
  let label := humanizeKey key
  match value with
  | .arr entries =>
      let ownCodes := dedupe (entries.filterMap TaxEntry.toStr)
      .mk id label ownCodes ownCodes []
  | .obj fields =>
      let children := buildForest fields currentPath
      .mk id label (dedupe (children.map CategoryNode.codes).flatten) [] children
  | .other => .mk id label (dedupe ([] : List (List String)).flatten) [] []

end

/-- The top-level guard of `buildCategoryTree`: a non-object (or absent)
document yields an empty node list. -/
def buildCategoryTree : TaxVal → List String → List CategoryNode
  | .obj fields, path => buildForest fields path
  | .arr _, _ => []
  | .other, _ => []

mutual

/-- All nodes of a forest, in pre-order. -/
def subnodes : List CategoryNode → List CategoryNode
  | [] => []
  | n :: rest => subtree n ++ subnodes rest

/-- A node together with all of its descendants. -/
def subtree : CategoryNode → List CategoryNode
  | .mk i l c o ch => .mk i l c o ch :: subnodes ch

end

/-- Insert into a sorted list: the element goes before the first entry `b`
with `r a b`. -/
def ordInsert {α : Type} (r : α → α → Bool) (a : α) : List α → List α
  | [] => [a]
  | b :: l => if r a b then a :: b :: l else b :: ordInsert r a l

/-- Stable insertion sort, modelling `Array.prototype.sort` with a
comparator: `r a b` holds when the comparator does not order `a` strictly
after `b`. -/
def isort {α : Type} (r : α → α → Bool) : List α → List α
  | [] => []
  | a :: l => ordInsert r a (isort r l)

/-- Lexicographic comparison of character lists. -/
def charListLe : List Char → List Char → Bool
  | [], _ => true
  | _ :: _, [] => false
  | a :: as, b :: bs => if a < b then true else if b < a then false else charListLe as bs

/-- `localeCompare`-based ordering on strings, modelled as code-point
order. -/
def strLe (a b : String) : Bool := charListLe a.data b.data

/-- JavaScript plain-object property write `m[k] = v`: overwrite the value
when the key is present, append the key otherwise. -/
def objSet {α : Type} : List (String × α) → String → α → List (String × α)
  | [], k, v => [(k, v)]
  | e :: rest, k, v =>
      if e.1 == k then (k, v) :: rest else e :: objSet rest k v

/-- JavaScript property read `m[k]` on an association list with distinct
keys. -/
def lookupA {α : Type} (m : List (String × α)) (k : String) : Option α :=
  (m.find? (fun e => e.1 == k)).map (fun e => e.2)

mutual

/-- The recursive `visit` of `flattenCategoryCodes` over a node list. -/
def flattenVisit : List (String × List String) → List CategoryNode → List (String × List String)
  | m, [] => m
  | m, n :: rest => flattenVisit (flattenNode m n) rest

/-- One `visit` of `flattenCategoryCodes`: record `id → aggregated codes`
for the node, then visit its children. -/
def flattenNode : List (String × List String) → CategoryNode → List (String × List String)
  | m, .mk i _ c _ ch => flattenVisit (objSet m i c) ch

end

/-- `flattenCategoryCodes` from the source. -/
def flattenCategoryCodes (nodes : List CategoryNode) : List (String × List String) :=
  flattenVisit [] nodes

/-- The breadcrumb separator used by `buildCodeToCategoryPaths`. -/
def pathSep : String := " › "

mutual

/-- The (code, breadcrumb) registrations performed by the `visit` of
`buildCodeToCategoryPaths`, in visit order: at every node the running
path gains the node's label; nodes with own codes register each own code
against the joined path; children are visited with the extended path. -/
def visitPairs : List CategoryNode → List String → List (String × String)
  | [], _ => []
  | n :: rest, pathLabels => visitNode n pathLabels ++ visitPairs rest pathLabels

/-- Registrations of one node and its descendants. -/
def visitNode : CategoryNode → List String → List (String × String)
  | .mk _ l _ o ch, pathLabels =>
      let nextPath := pathLabels ++ [l]
      (if o.length != 0 then o.map (fun code => (code, String.intercalate pathSep nextPath)) else [])
        ++ visitPairs ch nextPath

end

/-- One registration into the `code → Set of breadcrumbs` map. -/
def registerPair : List (String × List String) → String × String → List (String × List String)
  | [], p => [(p.1, [p.2])]
  | e :: rest, p =>
      if e.1 == p.1 then (e.1, addLabel e.2 p.2) :: rest else e :: registerPair rest p

/-- `buildCodeToCategoryPaths` from the source: fold all registrations into
the map, then sort each code's breadcrumb set. -/
def buildCodeToCategoryPaths (nodes : List CategoryNode) : List (String × List String) :=
  ((visitPairs nodes []).foldl registerPair []).map (fun e => (e.1, isort strLe e.2))

structure SceneSettings where
  machine_type : String
  material_code : String
  layer_thickness_mm : JsVal
deriving DecidableEq, Repr

structure RawMaterialSetting where
  label : String
  scene_settings : SceneSettings
deriving DecidableEq, Repr

structure RawMaterial where
  label : String
  description : String
  material_settings : List RawMaterialSetting
deriving DecidableEq, Repr

structure RawPrinter where
  label : String
  supported_machine_type_ids : List String
  supported_product_names : Option (List String)
  materials : List RawMaterial
deriving DecidableEq, Repr

structure RawMaterialData where
  printer_types : List RawPrinter
deriving DecidableEq, Repr

/-- The exported scene payload: the three fields picked off a raw
setting's `scene_settings`. -/
structure Scene where
  machine_type : String
  material_code : String
  layer_thickness_mm : JsVal
deriving DecidableEq, Repr

structure LayerOption where
  id : String
  label : String
  layerThickness : JsNumber
  scene : Scene
deriving DecidableEq, Repr

structure MaterialOption where
  code : String
  label : String
  description : String
  categoryPaths : List String
  settings : List LayerOption
deriving DecidableEq, Repr

structure PrinterOption where
  id : String
  label : String
  machineTypeIds : List String
  productNames : List String
  materials : List MaterialOption
deriving DecidableEq, Repr

/-- The layer option built for a raw setting (the body of
`thicknessMap.set` in `buildPrinters`). -/
def mkLayerOption (setting : RawMaterialSetting) : LayerOption :=
  let thickness := toNumber setting.scene_settings.layer_thickness_mm
  { id := setting.scene_settings.material_code ++ "-" ++ numToString thickness
    label := setting.label
    layerThickness := thickness
    scene := { machine_type := setting.scene_settings.machine_type
               material_code := setting.scene_settings.material_code
               layer_thickness_mm := setting.scene_settings.layer_thickness_mm } }

/-- The coerced thickness of a raw setting: the `thickness` constant of
the loop body in `buildPrinters`. -/
def settingTh (setting : RawMaterialSetting) : JsNumber :=
  toNumber setting.scene_settings.layer_thickness_mm

/-- One step of filling the thickness map: skip the setting when its
coerced thickness is already a key (`Map.has`, SameValueZero), else append
the new entry. -/
def thicknessMapStep (m : List (JsNumber × LayerOption)) (setting : RawMaterialSetting) :
    List (JsNumber × LayerOption) :=
  if m.any (fun e => nEq e.1 (settingTh setting)) then m
  else m ++ [(settingTh setting, mkLayerOption setting)]

/-- The thickness map of a material: insertion-ordered, one entry per
distinct coerced thickness, first setting wins. -/
def thicknessMap (settings : List RawMaterialSetting) : List (JsNumber × LayerOption) :=
  settings.foldl thicknessMapStep []

/-- The order induced by the comparator
`(a, b) => a.layerThickness - b.layerThickness`: on finite values the
numeric order; when either side is NaN the comparator evaluates to NaN,
which the sort treats as "not strictly after". -/
def thickLe (a b : JsNumber) : Bool :=
  match a, b with
  | .num x, .num y => decide (x ≤ y)
  | _, _ => true

def layerLe (a b : LayerOption) : Bool := thickLe a.layerThickness b.layerThickness

/-- The normalized, deduplicated, sorted layer options of a raw material. -/
def materialSettings (settings : List RawMaterialSetting) : List LayerOption :=
  isort layerLe ((thicknessMap settings).map (fun e => e.2))

/-- The per-material body of `buildPrinters`. -/
def buildMaterial (codeToPaths : List (String × List String)) (material : RawMaterial) :
    MaterialOption :=
  let materialCode :=
    match material.material_settings.head? with
    | some first => first.scene_settings.material_code
    | none => material.label
  { code := materialCode
    label := material.label
    description := material.description
    categoryPaths := (lookupA codeToPaths materialCode).getD []
    settings := materialSettings material.material_settings }

/-- `label.toLowerCase().replace(/[^a-z0-9]+/g, '-')`: the flag tracks
whether we are inside a run of non-alphanumeric characters. -/
def isSlugChar (c : Char) : Bool := ('a' ≤ c && c ≤ 'z') || ('0' ≤ c && c ≤ '9')

def slugAux : Bool → List Char → List Char
  | _, [] => []
  | inRun, c :: cs =>
      if isSlugChar c then c :: slugAux false cs
      else if inRun then slugAux true cs
      else '-' :: slugAux true cs

def slugify (s : String) : String := String.mk (slugAux false (s.data.map Char.toLower))

/-- The per-printer body of `buildPrinters`. -/
def buildPrinter (codeToPaths : List (String × List String)) (printer : RawPrinter) :
    PrinterOption :=
  { id := printer.supported_machine_type_ids.head?.getD (slugify printer.label)
    label := printer.label
    machineTypeIds := printer.supported_machine_type_ids
    productNames := printer.supported_product_names.getD []
    materials := isort (fun a b => strLe a.label b.label)
      ((printer.materials.map (buildMaterial codeToPaths)).filter
        (fun m => m.settings.length != 0)) }

/-- `buildPrinters` from the source. -/
def buildPrinters (data : RawMaterialData) (codeToPaths : List (String × List String)) :
    List PrinterOption :=
  isort (fun a b => strLe a.label b.label)
    ((data.printer_types.map (buildPrinter codeToPaths)).filter
      (fun p => p.materials.length != 0))

/-- The `filteredMaterials` derivation of the page: no printer → empty; no
selected filters → the printer's full list; otherwise the materials whose
code is in the union (a `Set`) of the selected ids' aggregated codes. -/
def filteredMaterials (printer : Option PrinterOption) (selectedCategoryIds : List String)
    (categoryCodeMap : List (String × List String)) : List MaterialOption :=
  match printer with
  | none => []
  | some p =>
      if selectedCategoryIds.length = 0 then p.materials
      else
        let allowedCodes := selectedCategoryIds.foldl
          (fun acc i => ((lookupA categoryCodeMap i).getD []).foldl addLabel acc) []
        p.materials.filter (fun m => allowedCodes.contains m.code)

/-- The material-repair effect of the page: with no printer clear the
selection; otherwise keep the selected code when it is still in the
filtered list, else fall back to the first filtered material's code (empty
when the list is empty). -/
def repairMaterialCode (printer : Option PrinterOption) (fm : List MaterialOption)
    (sel : String) : String :=
  match printer with
  | none => ""
  | some _ =>
      if fm.any (fun m => m.code == sel) then sel
      else ((fm.head?).map (fun m => m.code)).getD ""

/-- `selectedMaterial`: the first filtered material carrying the selected
code. -/
def selectedMaterialOf (fm : List MaterialOption) (code : String) : Option MaterialOption :=
  fm.find? (fun m => m.code == code)

/-- The thickness-repair effect of the page: with no selected material
clear; otherwise keep the selected thickness string when some layer option
renders to it, else fall back to the first option's thickness (empty when
the material has none). -/
def repairThickness (selectedMaterial : Option MaterialOption) (sel : String) : String :=
  match selectedMaterial with
  | none => ""
  | some m =>
      if m.settings.any (fun o => numToString o.layerThickness == sel) then sel
      else
        match m.settings.head? with
        | some o => numToString o.layerThickness
        | none => ""

/-- `thicknessOption`: the layer option whose rendered thickness matches
the selected thickness string. -/
def thicknessOptionOf (selectedMaterial : Option MaterialOption) (sel : String) :
    Option LayerOption :=
  match selectedMaterial with
  | none => none
  | some m => m.settings.find? (fun o => numToString o.layerThickness == sel)

/-- The `categoryCounts` derivation: for every entry of the category code
map, how many of its codes are codes of the selected printer's materials. -/
def categoryCounts (printer : Option PrinterOption)
    (categoryCodeMap : List (String × List String)) : List (String × Nat) :=
  match printer with
  | none => []
  | some p =>
      let printerCodes := (p.materials.map (fun m => m.code)).foldl addLabel []
      categoryCodeMap.map (fun e => (e.1, (e.2.filter (fun c => printerCodes.contains c)).length))

/-- A JSON value as produced by `JSON.parse`, field order preserved (only
the shapes the exported payload can contain). -/
inductive Json : Type where
  | jNum (q : ℚ)
  | jStr (s : String)
  | jNull
  | jBool (b : Bool)
  | jObj (fields : List (String × Json))
deriving Repr

/-- The JSON value a raw `layer_thickness_mm` slot denotes. -/
def jsonOfJsVal : JsVal → Json
  | .num q => .jNum q
  | .strNum s _ => .jStr s
  | .strNaN s => .jStr s
  | .nullV => .jNull
  | .boolV b => .jBool b

/-- The object literal serialized by `copySceneSettings`: exactly the three
fields, in source order. -/
def sceneToJson (scene : Scene) : Json :=
  .jObj [("machine_type", .jStr scene.machine_type),
         ("material_code", .jStr scene.material_code),
         ("layer_thickness_mm", jsonOfJsVal scene.layer_thickness_mm)]

/-- JSON string escaping for the characters that need it. -/
def jsonEscapeChar (c : Char) : String :=
  if c = '"' then "\\\""
  else if c = '\\' then "\\\\"
  else if c = '\n' then "\\n"
  else if c = '\r' then "\\r"
  else if c = '\t' then "\\t"
  else String.singleton c

def jsonEscape (s : String) : String := String.join (s.data.map jsonEscapeChar)

/-- Rendering of an atomic JSON value (numeral formatting abstracted as in
`numToString`). -/
def renderJsonAtom : Json → String
  | .jNum q => toString q
  | .jStr s => "\"" ++ jsonEscape s ++ "\""
  | .jNull => "null"
  | .jBool b => if b then "true" else "false"
  | .jObj _ => ""

/-- `JSON.stringify(v, null, 2)` for the one-level objects the payload
consists of: 2-space indentation, one field per line. -/
def stringify2 : Json → String
  | .jObj [] => "\x7b\x7d"
  | .jObj (f :: fs) =>
      "\x7b\n" ++ String.intercalate ",\n"
        ((f :: fs).map (fun e => "  \"" ++ jsonEscape e.1 ++ "\": " ++ renderJsonAtom e.2))
        ++ "\n\x7d"
  | v => renderJsonAtom v

/-- The clipboard payload of `copySceneSettings`. -/
def copyScenePayload (scene : Scene) : String := stringify2 (sceneToJson scene)

/-- Reading a field off a parsed JSON object. -/
def jsonLookup (j : Json) (k : String) : Option Json :=
  match j with
  | .jObj fields => (fields.find? (fun f => f.1 == k)).map (fun f => f.2)
  | _ => none

/-- The field names of a parsed JSON object, in order. -/
def jsonFieldNames (j : Json) : List String :=
  match j with
  | .jObj fields => fields.map (fun f => f.1)
  | _ => []

/-- The structural invariant every node built by the category tree builder
satisfies: duplicate-free aggregated codes, and either the leaf shape
(aggregated = own, no children) or the branch shape (no own codes,
aggregated = deduplicated concatenation of the children's). -/
def NodeWf (n : CategoryNode) : Prop :=
  n.codes.Nodup ∧
    ((n.codes = n.ownCodes ∧ n.children = []) ∨
     (n.ownCodes = [] ∧ n.codes = dedupe ((n.children.map CategoryNode.codes).flatten)))

/-- A sample taxonomy document (scenario A of the specification, with a
non-string entry and a duplicate code added). -/
def taxA : TaxVal :=
  .obj [("dental", .obj [("models",
    .arr [.str "RS-F2-DM", .str "RS-F2-IND", .nonStr, .str "RS-F2-DM"])])]

/-- The labels registered against a given code, in registration order. -/
def labelsOf (code : String) (ps : List (String × String)) : List String :=
  (ps.filter (fun p => p.1 == code)).map (fun p => p.2)

/-- A total order on JavaScript numbers placing NaN first, used to
describe the sorted output on all-numeric inputs. -/
def numLe (a b : JsNumber) : Bool :=
  match a, b with
  | .num x, .num y => decide (x ≤ y)
  | .nan, _ => true
  | .num _, .nan => false

/-- A raw material whose settings mix numeric and NaN-coercing
thicknesses, out of numeric order. -/
def matMixed : RawMaterial :=
  { label := "Mixed"
    description := "d"
    material_settings :=
      [⟨"300 microns", ⟨"FORM4", "X", .num 3⟩⟩,
       ⟨"broken", ⟨"FORM4", "X", .strNaN "oops"⟩⟩,
       ⟨"100 microns", ⟨"FORM4", "X", .num 1⟩⟩] }

/-- A raw material with a duplicated numeric thickness, out of order. -/
def matDup : RawMaterial :=
  { label := "M"
    description := "d"
    material_settings :=
      [⟨"300", ⟨"F4", "X", .num 3⟩⟩,
       ⟨"300b", ⟨"F4", "X", .num 3⟩⟩,
       ⟨"100", ⟨"F4", "X", .num 1⟩⟩] }

/-- A raw material whose two settings both have NaN-coercing thicknesses. -/
def matAllNaN : RawMaterial :=
  { label := "N"
    description := "d"
    material_settings :=
      [⟨"a", ⟨"F4", "X", .strNaN "x"⟩⟩, ⟨"b", ⟨"F4", "Y", .strNaN "y"⟩⟩] }

/-- A raw material whose settings carry two different material codes. -/
def matDiff : RawMaterial :=
  { label := "Tough"
    description := "d"
    material_settings :=
      [⟨"100", ⟨"F4", "A", .num 1⟩⟩, ⟨"200", ⟨"F4", "B", .num 2⟩⟩] }

/-- A hand-built material option with code "X". -/
def matX : MaterialOption :=
  ⟨"X", "Mat X", "", [], [⟨"X-1", "100", .num 1, ⟨"F4", "X", .num 1⟩⟩]⟩

/-- A hand-built material option with code "Y". -/
def matY : MaterialOption :=
  ⟨"Y", "Mat Y", "", [], [⟨"Y-2", "200", .num 2, ⟨"F4", "Y", .num 2⟩⟩]⟩

/-- A hand-built printer option carrying `matX` and `matY`. -/
def printerP : PrinterOption := ⟨"f4", "Form 4", ["f4"], [], [matX, matY]⟩

/-- A taxonomy with one category owning material code "X". -/
def taxX : TaxVal := .obj [("cat", .arr [.str "X"])]

/-- A raw catalog with one printer whose two materials share the material
code "X". -/
def dataDupe : RawMaterialData :=
  { printer_types :=
      [{ label := "P"
         supported_machine_type_ids := ["p1"]
         supported_product_names := none
         materials :=
           [{ label := "A"
              description := ""
              material_settings := [⟨"100", ⟨"p1", "X", .num 1⟩⟩] },
            { label := "B"
              description := ""
              material_settings := [⟨"200", ⟨"p1", "X", .num 2⟩⟩] }] }] }

/-- A taxonomy with two disjoint leaf categories. -/
def tax2 : TaxVal := .obj [("a", .arr [.str "X"]), ("b", .arr [.str "Y"])]

theorem mem_addLabel {ls : List String} {l a : String} :
    a ∈ addLabel ls l ↔ a ∈ ls ∨ a = l := by
  by_cases h : l ∈ ls <;> simp only [addLabel, h, if_true, if_false, List.mem_append,
    List.mem_singleton]
  constructor
  · exact Or.inl
  · rintro (ha | rfl)
    · exact ha
    · exact h

theorem nodup_addLabel {ls : List String} (l : String) (h : ls.Nodup) :
    (addLabel ls l).Nodup := by
  by_cases hm : l ∈ ls <;> simp [addLabel, hm, h, List.nodup_append]

theorem foldl_addLabel_mem (xs : List String) :
    ∀ (acc : List String) (a : String), a ∈ xs.foldl addLabel acc ↔ a ∈ acc ∨ a ∈ xs := by
  induction xs with
  | nil => simp
  | cons x xs ih =>
      intro acc a
      simp only [List.foldl_cons, ih, mem_addLabel, List.mem_cons]
      tauto

theorem foldl_addLabel_nodup (xs : List String) :
    ∀ (acc : List String), acc.Nodup → (xs.foldl addLabel acc).Nodup := by
  induction xs with
  | nil => exact fun _ h => h
  | cons x xs ih => exact fun acc h => ih _ (nodup_addLabel x h)

theorem mem_dedupe {xs : List String} {a : String} : a ∈ dedupe xs ↔ a ∈ xs := by
  simp [dedupe, foldl_addLabel_mem]

theorem nodup_dedupe (xs : List String) : (dedupe xs).Nodup :=
  foldl_addLabel_nodup xs [] List.nodup_nil

theorem perm_ordInsert {α : Type} (r : α → α → Bool) (a : α) (l : List α) :
    (ordInsert r a l).Perm (a :: l) := by
  induction l with
  | nil => exact List.Perm.refl _
  | cons b l ih =>
      unfold ordInsert
      split
      · exact List.Perm.refl _
      · exact (ih.cons b).trans (List.Perm.swap a b l)

theorem perm_isort {α : Type} (r : α → α → Bool) (l : List α) :
    (isort r l).Perm l := by
  induction l with
  | nil => exact List.Perm.refl _
  | cons a l ih => exact (perm_ordInsert r a (isort r l)).trans (ih.cons a)

theorem mem_isort {α : Type} {r : α → α → Bool} {l : List α} {a : α} :
    a ∈ isort r l ↔ a ∈ l :=
  (perm_isort r l).mem_iff

theorem nodup_isort {α : Type} (r : α → α → Bool) {l : List α} (h : l.Nodup) :
    (isort r l).Nodup :=
  (perm_isort r l).nodup_iff.mpr h

theorem pairwise_ordInsert {α : Type} (r : α → α → Bool)
    (htot : ∀ a b, r a b = true ∨ r b a = true)
    (htrans : ∀ a b c, r a b = true → r b c = true → r a c = true)
    (a : α) (l : List α) (h : l.Pairwise (fun x y => r x y = true)) :
    (ordInsert r a l).Pairwise (fun x y => r x y = true) := by
  induction l with
  | nil => simp [ordInsert]
  | cons b l ih =>
      unfold ordInsert
      split
      case isTrue hr =>
        refine List.Pairwise.cons ?_ h
        intro x hx
        rcases List.mem_cons.mp hx with rfl | hx
        · exact hr
        · exact htrans a b x hr (List.rel_of_pairwise_cons h hx)
      case isFalse hr =>
        refine List.Pairwise.cons ?_ (ih (List.Pairwise.of_cons h))
        intro x hx
        rcases List.mem_cons.mp ((perm_ordInsert r a l).mem_iff.mp hx) with rfl | hx
        · rcases htot x b with hxb | hbx
          · exact absurd hxb hr
          · exact hbx
        · exact List.rel_of_pairwise_cons h hx

theorem pairwise_isort {α : Type} (r : α → α → Bool)
    (htot : ∀ a b, r a b = true ∨ r b a = true)
    (htrans : ∀ a b c, r a b = true → r b c = true → r a c = true)
    (l : List α) : (isort r l).Pairwise (fun x y => r x y = true) := by
  induction l with
  | nil => simp [isort]
  | cons a l ih => exact pairwise_ordInsert r htot htrans a (isort r l) ih

theorem ordInsert_congr {α : Type} (r r' : α → α → Bool) (a : α) (l : List α)
    (hagree : ∀ b ∈ l, r a b = r' a b) :
    ordInsert r a l = ordInsert r' a l := by
  induction l with
  | nil => rfl
  | cons b l ih =>
      unfold ordInsert
      rw [hagree b (List.mem_cons_self b l)]
      split
      · rfl
      · rw [ih (fun c hc => hagree c (List.mem_cons_of_mem b hc))]

theorem isort_congr {α : Type} (r r' : α → α → Bool) (l : List α)
    (hagree : ∀ a ∈ l, ∀ b ∈ l, r a b = r' a b) :
    isort r l = isort r' l := by
  induction l with
  | nil => rfl
  | cons a l ih =>
      unfold isort
      rw [ih (fun x hx y hy =>
        hagree x (List.mem_cons_of_mem a hx) y (List.mem_cons_of_mem a hy))]
      exact ordInsert_congr r r' a (isort r' l) (fun b hb =>
        hagree a (List.mem_cons_self a l) b (List.mem_cons_of_mem a (mem_isort.mp hb)))

theorem subnodes_cons (n : CategoryNode) (rest : List CategoryNode) :
    subnodes (n :: rest) = subtree n ++ subnodes rest := by
  simp [subnodes]

theorem subtree_mk (i l : String) (c o : List String) (ch : List CategoryNode) :
    subtree (.mk i l c o ch) = .mk i l c o ch :: subnodes ch := by
  simp [subtree]

theorem self_mem_subtree (n : CategoryNode) : n ∈ subtree n := by
  cases n
  rw [subtree_mk]
  exact List.mem_cons_self _ _

theorem mem_subnodes {m : CategoryNode} {ns : List CategoryNode} :
    m ∈ subnodes ns ↔ ∃ n ∈ ns, m ∈ subtree n := by
  induction ns with
  | nil => simp [subnodes]
  | cons n rest ih => simp [subnodes_cons, ih]

theorem roots_mem_subnodes {n : CategoryNode} {ns : List CategoryNode} (h : n ∈ ns) :
    n ∈ subnodes ns :=
  mem_subnodes.mpr ⟨n, h, self_mem_subtree n⟩

theorem forest_wf :
    ∀ (fields : List (String × TaxVal)) (path : List String),
      ∀ n ∈ subnodes (buildForest fields path), NodeWf n := by
  refine buildForest.induct
    (fun fields path => ∀ n ∈ subnodes (buildForest fields path), NodeWf n)
    (fun key value path => ∀ n ∈ subtree (buildEntry key value path), NodeWf n)
    ?_ ?_ ?_ ?_ ?_
  · intro key path entries n hn
    rw [buildEntry, subtree_mk] at hn
    simp only [subnodes, List.mem_cons, List.not_mem_nil, or_false] at hn
    subst hn
    exact ⟨nodup_dedupe _, Or.inl ⟨rfl, rfl⟩⟩
  · intro key path currentPath fields ih n hn
    rw [buildEntry, subtree_mk] at hn
    rcases List.mem_cons.mp hn with rfl | hn
    · exact ⟨nodup_dedupe _, Or.inr ⟨rfl, rfl⟩⟩
    · exact ih n hn
  · intro key path n hn
    rw [buildEntry, subtree_mk] at hn
    simp only [subnodes, List.mem_cons, List.not_mem_nil, or_false] at hn
    subst hn
    exact ⟨nodup_dedupe _, Or.inr ⟨rfl, rfl⟩⟩
  · intro path n hn
    simp [buildForest, subnodes] at hn
  · intro key value rest path ih1 ih2 n hn
    rw [buildForest, subnodes_cons] at hn
    rcases List.mem_append.mp hn with hn | hn
    · exact ih1 n hn
    · exact ih2 n hn

theorem tree_wf (t : TaxVal) (path : List String) :
    ∀ n ∈ subnodes (buildCategoryTree t path), NodeWf n := by
  cases t with
  | obj fields => exact forest_wf fields path
  | arr entries => simp [buildCategoryTree, subnodes]
  | other => simp [buildCategoryTree, subnodes]

theorem forest_codes_iff :
    ∀ (fields : List (String × TaxVal)) (path : List String),
      ∀ n ∈ subnodes (buildForest fields path),
        ∀ c, c ∈ n.codes ↔ ∃ m ∈ subtree n, c ∈ m.ownCodes := by
  refine buildForest.induct
    (fun fields path => ∀ n ∈ subnodes (buildForest fields path),
      ∀ c, c ∈ n.codes ↔ ∃ m ∈ subtree n, c ∈ m.ownCodes)
    (fun key value path => ∀ n ∈ subtree (buildEntry key value path),
      ∀ c, c ∈ n.codes ↔ ∃ m ∈ subtree n, c ∈ m.ownCodes)
    ?_ ?_ ?_ ?_ ?_
  · intro key path entries n hn c
    rw [buildEntry, subtree_mk] at hn
    simp only [subnodes, List.mem_cons, List.not_mem_nil, or_false] at hn
    subst hn
    rw [subtree_mk]
    simp [subnodes, CategoryNode.codes, CategoryNode.ownCodes]
  · intro key path currentPath fields ih n hn c
    rw [buildEntry, subtree_mk] at hn
    rcases List.mem_cons.mp hn with rfl | hn
    · rw [subtree_mk]
      simp only [CategoryNode.codes, CategoryNode.ownCodes, mem_dedupe, List.mem_flatten,
        List.mem_map, List.mem_cons, List.not_mem_nil, false_or]
      constructor
      · rintro ⟨cs, ⟨child, hchild, rfl⟩, hc⟩
        have := (ih child (roots_mem_subnodes hchild) c).mp hc
        rcases this with ⟨m, hm, hmc⟩
        exact ⟨m, Or.inr (mem_subnodes.mpr ⟨child, hchild, hm⟩), hmc⟩
      · rintro ⟨m, hm, hmc⟩
        rcases hm with rfl | hm
        · simp [CategoryNode.ownCodes] at hmc
        · rcases mem_subnodes.mp hm with ⟨child, hchild, hmsub⟩
          have := (ih child (roots_mem_subnodes hchild) c).mpr ⟨m, hmsub, hmc⟩
          exact ⟨child.codes, ⟨child, hchild, rfl⟩, this⟩
    · exact ih n hn c
  · intro key path n hn c
    rw [buildEntry, subtree_mk] at hn
    simp only [subnodes, List.mem_cons, List.not_mem_nil, or_false] at hn
    subst hn
    rw [subtree_mk]
    simp [subnodes, CategoryNode.codes, CategoryNode.ownCodes, dedupe, addLabel]
  · intro path n hn
    simp [buildForest, subnodes] at hn
  · intro key value rest path ih1 ih2 n hn c
    rw [buildForest, subnodes_cons] at hn
    rcases List.mem_append.mp hn with hn | hn
    · exact ih1 n hn c
    · exact ih2 n hn c

theorem buildForest_eq_map (fields : List (String × TaxVal)) (path : List String) :
    buildForest fields path = fields.map (fun kv => buildEntry kv.1 kv.2 path) := by
  induction fields with
  | nil => simp [buildForest]
  | cons kv rest ih =>
      cases kv
      rw [buildForest, ih]
      rfl

theorem tree_codes_iff (t : TaxVal) (path : List String) :
    ∀ n ∈ subnodes (buildCategoryTree t path),
      ∀ c, c ∈ n.codes ↔ ∃ m ∈ subtree n, c ∈ m.ownCodes := by
  cases t with
  | obj fields => exact forest_codes_iff fields path
  | arr entries => simp [buildCategoryTree, subnodes]
  | other => simp [buildCategoryTree, subnodes]

/-- C1: in the category tree builder, every object field is mapped to a
node; an array-valued key yields a leaf whose own and aggregated codes are
the deduplicated string entries of the array (non-string entries
discarded); an object-valued key yields a branch with empty own codes
whose aggregated codes are the deduplicated union of its children's
aggregated codes; and a code belongs to a node's aggregated codes exactly
when some node of that node's subtree (the node itself or a descendant
leaf) owns it — so a leaf's code appears in the leaf, in every ancestor,
and in no other node. -/
theorem C1_tree_aggregation :
    (∀ (fields : List (String × TaxVal)) (path : List String),
        buildCategoryTree (.obj fields) path
          = fields.map (fun kv => buildEntry kv.1 kv.2 path)) ∧
    (∀ (key : String) (entries : List TaxEntry) (path : List String),
        buildEntry key (.arr entries) path
          = .mk (String.intercalate "/" (path ++ [key])) (humanizeKey key)
              (dedupe (entries.filterMap TaxEntry.toStr))
              (dedupe (entries.filterMap TaxEntry.toStr)) []) ∧
    (∀ (key : String) (fields : List (String × TaxVal)) (path : List String),
        (buildEntry key (.obj fields) path).ownCodes = [] ∧
        (buildEntry key (.obj fields) path).children
          = buildCategoryTree (.obj fields) (path ++ [key]) ∧
        (buildEntry key (.obj fields) path).codes
          = dedupe ((((buildEntry key (.obj fields) path).children).map
              CategoryNode.codes).flatten)) ∧
    (∀ (t : TaxVal) (path : List String), ∀ n ∈ subnodes (buildCategoryTree t path),
        ∀ c, c ∈ n.codes ↔ ∃ m ∈ subtree n, c ∈ m.ownCodes) := by
  refine ⟨?_, ?_, ?_, tree_codes_iff⟩
  · intro fields path
    exact buildForest_eq_map fields path
  · intro key entries path
    rfl
  · intro key fields path
    exact ⟨rfl, rfl, rfl⟩

/-- Witness for C1 at the sample taxonomy: the aggregated codes of the
root "Dental" branch contain the code of its descendant leaf. -/
theorem C1_tree_aggregation_witness :
    "RS-F2-DM" ∈ (CategoryNode.mk "dental" "Dental" ["RS-F2-DM", "RS-F2-IND"] []
      [CategoryNode.mk "dental/models" "Models" ["RS-F2-DM", "RS-F2-IND"]
        ["RS-F2-DM", "RS-F2-IND"] []]).codes :=
  (C1_tree_aggregation.2.2.2 taxA [] _ (List.Mem.head _) "RS-F2-DM").mpr
    ⟨CategoryNode.mk "dental/models" "Models" ["RS-F2-DM", "RS-F2-IND"]
        ["RS-F2-DM", "RS-F2-IND"] [],
      List.Mem.tail _ (List.Mem.head _), List.Mem.head _⟩

/-- C8: every node the category tree builder produces is either a leaf
(non-empty own codes, no children) or a branch (no own codes, every
aggregated code carried by some child), and its aggregated codes are free
of duplicates. -/
theorem C8_leaf_or_branch (t : TaxVal) (path : List String) (n : CategoryNode)
    (hn : n ∈ subnodes (buildCategoryTree t path)) :
    n.codes.Nodup ∧
      ((n.ownCodes ≠ [] ∧ n.children = []) ∨
       (n.ownCodes = [] ∧ ∀ c ∈ n.codes, ∃ ch ∈ n.children, c ∈ ch.codes)) := by
  obtain ⟨hnd, hshape⟩ := tree_wf t path n hn
  refine ⟨hnd, ?_⟩
  rcases hshape with ⟨hco, hch⟩ | ⟨hown, hc⟩
  · by_cases ho : n.ownCodes = []
    · right
      refine ⟨ho, ?_⟩
      intro c hcmem
      rw [hco, ho] at hcmem
      simp at hcmem
    · left
      exact ⟨ho, hch⟩
  · right
    refine ⟨hown, ?_⟩
    intro c hcmem
    rw [hc] at hcmem
    rcases List.mem_flatten.mp (mem_dedupe.mp hcmem) with ⟨cs, hcs, hccs⟩
    rcases List.mem_map.mp hcs with ⟨ch, hch, rfl⟩
    exact ⟨ch, hch, hccs⟩

/-- Witness for C8 at the sample taxonomy: the root "Dental" branch node
satisfies the invariant. -/
theorem C8_leaf_or_branch_witness :
    (CategoryNode.mk "dental" "Dental" ["RS-F2-DM", "RS-F2-IND"] []
      [CategoryNode.mk "dental/models" "Models" ["RS-F2-DM", "RS-F2-IND"]
        ["RS-F2-DM", "RS-F2-IND"] []]).codes.Nodup :=
  (C8_leaf_or_branch taxA [] _ (List.Mem.head _)).1

theorem mem_labelsOf {code l : String} {ps : List (String × String)} :
    l ∈ labelsOf code ps ↔ (code, l) ∈ ps := by
  simp only [labelsOf, List.mem_map, List.mem_filter, beq_iff_eq]
  constructor
  · rintro ⟨⟨pc, pl⟩, ⟨hp, hcode⟩, rfl⟩
    simp only at hcode
    subst hcode
    exact hp
  · intro h
    exact ⟨(code, l), ⟨h, rfl⟩, rfl⟩

theorem lookupA_cons {α : Type} (e : String × α) (m : List (String × α)) (k : String) :
    lookupA (e :: m) k = if e.1 == k then some e.2 else lookupA m k := by
  simp only [lookupA, List.find?]
  split <;> simp_all

theorem lookupA_registerPair (m : List (String × List String)) (p : String × String)
    (code : String) :
    lookupA (registerPair m p) code
      = if p.1 = code then some (addLabel ((lookupA m code).getD []) p.2)
        else lookupA m code := by
  obtain ⟨pk, pl⟩ := p
  induction m with
  | nil =>
      by_cases h : pk = code
      · simp [registerPair, lookupA, List.find?, addLabel, h]
      · have hb : (pk == code) = false := by simp [h]
        simp [registerPair, lookupA, List.find?, hb, h]
  | cons e rest ih =>
      obtain ⟨ek, ev⟩ := e
      rw [registerPair]
      by_cases he : ek = pk
      · subst he
        by_cases hc : ek = code
        · subst hc
          simp [lookupA_cons]
        · simp [lookupA_cons, hc, beq_iff_eq]
      · by_cases hc : pk = code
        · subst hc
          simp [lookupA_cons, he, ih, beq_iff_eq]
        · by_cases hec : ek = code
          · subst hec
            simp [lookupA_cons, hc, he, beq_iff_eq]
          · simp [lookupA_cons, hec, hc, he, ih, beq_iff_eq]

theorem lookupA_foldl_registerPair (ps : List (String × String)) :
    ∀ (m : List (String × List String)) (code : String),
      lookupA (ps.foldl registerPair m) code
        = (labelsOf code ps).foldl
            (fun o l => some (addLabel (o.getD []) l)) (lookupA m code) := by
  induction ps with
  | nil => intro m code; simp [labelsOf]
  | cons p ps ih =>
      intro m code
      rw [List.foldl_cons, ih]
      by_cases hc : p.1 = code
      · have : labelsOf code (p :: ps) = p.2 :: labelsOf code ps := by
          simp [labelsOf, List.filter_cons, hc]
        rw [this, List.foldl_cons, lookupA_registerPair, if_pos hc]
      · have : labelsOf code (p :: ps) = labelsOf code ps := by
          have : (p.1 == code) = false := by simpa using hc
          simp [labelsOf, List.filter_cons, this]
        rw [this, lookupA_registerPair, if_neg hc]

theorem foldl_someAdd_of_some (ls : List String) :
    ∀ (a : List String),
      ls.foldl (fun o l => some (addLabel (o.getD []) l)) (some a)
        = some (ls.foldl addLabel a) := by
  induction ls with
  | nil => intro a; rfl
  | cons l ls ih => intro a; rw [List.foldl_cons, List.foldl_cons]; exact ih _

theorem foldl_someAdd_none (ls : List String) :
    ls.foldl (fun o l => some (addLabel (o.getD []) l)) none
      = if ls = [] then none else some (dedupe ls) := by
  cases ls with
  | nil => rfl
  | cons l ls =>
      rw [List.foldl_cons, if_neg (List.cons_ne_nil l ls)]
      have h1 : (some (addLabel ((none : Option (List String)).getD []) l))
          = some (addLabel [] l) := rfl
      rw [h1, foldl_someAdd_of_some]
      rfl

theorem keys_registerPair (m : List (String × List String)) (p : String × String) :
    (registerPair m p).map Prod.fst = addLabel (m.map Prod.fst) p.1 := by
  induction m with
  | nil => simp [registerPair, addLabel]
  | cons e rest ih =>
      rw [registerPair]
      by_cases he : e.1 == p.1
      · have he' : e.1 = p.1 := by simpa using he
        rw [if_pos he]
        simp [addLabel, he'.symm, List.mem_cons]
      · have he' : ¬ e.1 = p.1 := by simpa using he
        rw [if_neg he]
        simp only [List.map_cons, ih, addLabel]
        by_cases hm : p.1 ∈ rest.map Prod.fst
        · rw [if_pos hm, if_pos (List.mem_cons_of_mem _ hm)]
        · rw [if_neg hm, if_neg ?_]
          · simp
          · intro hmem
            rcases List.mem_cons.mp hmem with h | h
            · exact he' h.symm
            · exact hm h

theorem keys_foldl_registerPair (ps : List (String × String)) :
    ∀ (m : List (String × List String)),
      (ps.foldl registerPair m).map Prod.fst
        = (ps.map Prod.fst).foldl addLabel (m.map Prod.fst) := by
  induction ps with
  | nil => intro m; rfl
  | cons p ps ih =>
      intro m
      rw [List.foldl_cons, ih, List.map_cons, List.foldl_cons, keys_registerPair]

theorem nodup_keys_foldl_registerPair (ps : List (String × String)) :
    ((ps.foldl registerPair []).map Prod.fst).Nodup := by
  rw [keys_foldl_registerPair]
  exact foldl_addLabel_nodup _ _ (by simp)

theorem lookupA_some_mem {α : Type} {m : List (String × α)} {k : String} {v : α}
    (h : lookupA m k = some v) : (k, v) ∈ m := by
  induction m with
  | nil => simp [lookupA] at h
  | cons e rest ih =>
      rw [lookupA_cons] at h
      by_cases he : e.1 == k
      · rw [if_pos he] at h
        have he' : e.1 = k := by simpa using he
        cases e
        simp only at he'
        subst he'
        simp only [Option.some.injEq] at h
        subst h
        exact List.mem_cons_self _ _
      · rw [if_neg he] at h
        exact List.mem_cons_of_mem _ (ih h)

theorem mem_lookupA_of_nodup {α : Type} {m : List (String × α)} {k : String} {v : α}
    (hk : (m.map Prod.fst).Nodup) (h : (k, v) ∈ m) : lookupA m k = some v := by
  induction m with
  | nil => simp at h
  | cons e rest ih =>
      rw [lookupA_cons]
      rcases List.mem_cons.mp h with rfl | hmem
      · simp
      · have hk1 : e.1 ≠ k := by
          intro he
          have hkm : k ∈ rest.map Prod.fst := List.mem_map.mpr ⟨(k, v), hmem, rfl⟩
          rw [List.map_cons] at hk
          exact (List.nodup_cons.mp hk).1 (he ▸ hkm)
        rw [if_neg (by simpa using hk1)]
        exact ih (List.nodup_cons.mp (by rwa [List.map_cons] at hk)).2 hmem

theorem visitPairs_ownCodes :
    ∀ (ns : List CategoryNode) (pathLabels : List String),
      ∀ p ∈ visitPairs ns pathLabels, ∃ n ∈ subnodes ns, p.1 ∈ n.ownCodes := by
  refine visitPairs.induct
    (fun ns pathLabels => ∀ p ∈ visitPairs ns pathLabels, ∃ n ∈ subnodes ns, p.1 ∈ n.ownCodes)
    (fun n pathLabels => ∀ p ∈ visitNode n pathLabels, ∃ m ∈ subtree n, p.1 ∈ m.ownCodes)
    ?_ ?_ ?_
  · intro i l codes o ch pathLabels nextPath ih p hp
    rw [visitNode] at hp
    rcases List.mem_append.mp hp with hp | hp
    · by_cases h0 : o.length != 0
      · rw [if_pos h0] at hp
        rcases List.mem_map.mp hp with ⟨code, hcode, rfl⟩
        exact ⟨.mk i l codes o ch, self_mem_subtree _, hcode⟩
      · rw [if_neg h0] at hp
        simp at hp
    · rcases ih p hp with ⟨m, hm, hmp⟩
      exact ⟨m, by rw [subtree_mk]; exact List.mem_cons_of_mem _ hm, hmp⟩
  · intro pathLabels p hp
    simp [visitPairs] at hp
  · intro n rest pathLabels ih1 ih2 p hp
    rw [visitPairs] at hp
    rcases List.mem_append.mp hp with hp | hp
    · rcases ih1 p hp with ⟨m, hm, hmp⟩
      exact ⟨m, by rw [subnodes_cons]; exact List.mem_append.mpr (Or.inl hm), hmp⟩
    · rcases ih2 p hp with ⟨m, hm, hmp⟩
      exact ⟨m, by rw [subnodes_cons]; exact List.mem_append.mpr (Or.inr hm), hmp⟩

theorem entry_of_buildCodeToCategoryPaths {ns : List CategoryNode} {e : String × List String}
    (he : e ∈ buildCodeToCategoryPaths ns) :
    labelsOf e.1 (visitPairs ns []) ≠ [] ∧
      e.2 = isort strLe (dedupe (labelsOf e.1 (visitPairs ns []))) := by
  rcases List.mem_map.mp he with ⟨e0, he0, hmap⟩
  have hlk := mem_lookupA_of_nodup (nodup_keys_foldl_registerPair _) he0
  rw [lookupA_foldl_registerPair] at hlk
  have hnil : lookupA ([] : List (String × List String)) e0.1 = none := rfl
  rw [hnil, foldl_someAdd_none] at hlk
  by_cases h0 : labelsOf e0.1 (visitPairs ns []) = []
  · rw [if_pos h0] at hlk
    exact absurd hlk (by simp)
  · rw [if_neg h0] at hlk
    have hval : e0.2 = dedupe (labelsOf e0.1 (visitPairs ns [])) :=
      (Option.some.injEq _ _ ▸ hlk).symm
    subst hmap
    exact ⟨h0, by rw [hval]⟩

theorem charListLe_total : ∀ (as bs : List Char),
    charListLe as bs = true ∨ charListLe bs as = true := by
  intro as
  induction as with
  | nil => intro bs; exact Or.inl rfl
  | cons a as ih =>
      intro bs
      cases bs with
      | nil => exact Or.inr rfl
      | cons b bs =>
          rw [charListLe, charListLe]
          rcases lt_trichotomy a b with hab | hab | hab
          · left
            rw [if_pos hab]
          · subst hab
            simp only [if_neg (lt_irrefl a)]
            exact ih bs
          · right
            rw [if_pos hab]

theorem charListLe_trans : ∀ (as bs cs : List Char),
    charListLe as bs = true → charListLe bs cs = true → charListLe as cs = true := by
  intro as
  induction as with
  | nil => intro bs cs _ _; rfl
  | cons a as ih =>
      intro bs cs h1 h2
      cases bs with
      | nil => simp [charListLe] at h1
      | cons b bs =>
          cases cs with
          | nil => simp [charListLe] at h2
          | cons c cs =>
              rw [charListLe] at h1 h2 ⊢
              rcases lt_trichotomy a b with hab | hab | hab
              · rcases lt_trichotomy b c with hbc | hbc | hbc
                · rw [if_pos (lt_trans hab hbc)]
                · subst hbc
                  rw [if_pos hab]
                · rw [if_pos hbc, if_neg (lt_asymm hbc)] at h2
                  simp at h2
              · subst hab
                rcases lt_trichotomy a c with hac | hac | hac
                · rw [if_pos hac]
                · subst hac
                  simp only [if_neg (lt_irrefl a)] at h1 h2 ⊢
                  exact ih bs cs h1 h2
                · rw [if_neg (lt_asymm hac), if_pos hac] at h2
                  simp at h2
              · rw [if_neg (lt_asymm hab), if_pos hab] at h1
                simp at h1

theorem strLe_total (a b : String) : strLe a b = true ∨ strLe b a = true :=
  charListLe_total a.data b.data

theorem strLe_trans (a b c : String) (h1 : strLe a b = true) (h2 : strLe b c = true) :
    strLe a c = true :=
  charListLe_trans a.data b.data c.data h1 h2

/-- C5: every entry of the code-to-breadcrumb index is a non-empty,
deduplicated list of breadcrumbs sorted lexicographically; a breadcrumb is
listed under a code exactly when the tree walk registered that (code,
breadcrumb) pair; and every registration comes from a leaf node (empty
children) owning the code — branch nodes only extend the running label
path. -/
theorem C5_breadcrumb_index (t : TaxVal) :
    (∀ e ∈ buildCodeToCategoryPaths (buildCategoryTree t []),
        e.2 ≠ [] ∧ e.2.Nodup ∧ e.2.Pairwise (fun a b => strLe a b = true)) ∧
    (∀ code label,
        (∃ ls, (code, ls) ∈ buildCodeToCategoryPaths (buildCategoryTree t []) ∧ label ∈ ls)
          ↔ (code, label) ∈ visitPairs (buildCategoryTree t []) []) ∧
    (∀ p ∈ visitPairs (buildCategoryTree t []) [],
        ∃ n ∈ subnodes (buildCategoryTree t []), n.children = [] ∧ p.1 ∈ n.ownCodes) := by
  refine ⟨?_, ?_, ?_⟩
  · intro e he
    obtain ⟨h0, hval⟩ := entry_of_buildCodeToCategoryPaths he
    refine ⟨?_, ?_, ?_⟩
    · rcases List.exists_mem_of_ne_nil _ h0 with ⟨l, hl⟩
      have : l ∈ e.2 := by
        rw [hval]
        exact mem_isort.mpr (mem_dedupe.mpr hl)
      exact List.ne_nil_of_mem this
    · rw [hval]
      exact nodup_isort _ (nodup_dedupe _)
    · rw [hval]
      exact pairwise_isort strLe strLe_total strLe_trans _
  · intro code label
    constructor
    · rintro ⟨ls, hls, hlabel⟩
      obtain ⟨h0, hval⟩ := entry_of_buildCodeToCategoryPaths hls
      simp only at hval h0
      rw [hval] at hlabel
      exact mem_labelsOf.mp (mem_dedupe.mp (mem_isort.mp hlabel))
    · intro hmem
      have hlab : label ∈ labelsOf code (visitPairs (buildCategoryTree t []) []) :=
        mem_labelsOf.mpr hmem
      have h0 : labelsOf code (visitPairs (buildCategoryTree t []) []) ≠ [] :=
        List.ne_nil_of_mem hlab
      have hlk : lookupA ((visitPairs (buildCategoryTree t []) []).foldl registerPair []) code
          = some (dedupe (labelsOf code (visitPairs (buildCategoryTree t []) []))) := by
        rw [lookupA_foldl_registerPair]
        have hnil : lookupA ([] : List (String × List String)) code = none := rfl
        rw [hnil, foldl_someAdd_none, if_neg h0]
      refine ⟨isort strLe (dedupe (labelsOf code (visitPairs (buildCategoryTree t []) []))),
        ?_, mem_isort.mpr (mem_dedupe.mpr hlab)⟩
      exact List.mem_map.mpr ⟨(code, dedupe (labelsOf code (visitPairs (buildCategoryTree t []) []))),
        lookupA_some_mem hlk, rfl⟩
  · intro p hp
    rcases visitPairs_ownCodes _ [] p hp with ⟨n, hn, hno⟩
    obtain ⟨hnd, hshape⟩ := tree_wf t [] n hn
    rcases hshape with ⟨hco, hch⟩ | ⟨hown, hc⟩
    · exact ⟨n, hn, hch, hno⟩
    · rw [hown] at hno
      simp at hno

/-- Witness for C5 at the sample taxonomy: the entry registered for
"RS-F2-DM" is duplicate-free. -/
theorem C5_breadcrumb_index_witness :
    (("RS-F2-DM", ["Dental › Models"]) : String × List String).2.Nodup :=
  ((C5_breadcrumb_index taxA).1 ("RS-F2-DM", ["Dental › Models"]) (List.Mem.head _)).2.1

theorem nEq_refl (a : JsNumber) : nEq a a = true := by
  cases a <;> simp [nEq]

theorem nEq_symm {a b : JsNumber} (h : nEq a b = true) : nEq b a = true := by
  cases a <;> cases b <;> simp_all [nEq, beq_iff_eq]

theorem nEq_trans {a b c : JsNumber} (h1 : nEq a b = true) (h2 : nEq b c = true) :
    nEq a c = true := by
  cases a <;> cases b <;> cases c <;> simp_all [nEq, beq_iff_eq]

theorem foldl_step_sub (ss : List RawMaterialSetting) :
    ∀ (m : List (JsNumber × LayerOption)) (e : JsNumber × LayerOption),
      e ∈ m → e ∈ ss.foldl thicknessMapStep m := by
  induction ss with
  | nil => intro m e he; exact he
  | cons s ss ih =>
      intro m e he
      rw [List.foldl_cons]
      refine ih _ e ?_
      unfold thicknessMapStep
      split
      · exact he
      · exact List.mem_append.mpr (Or.inl he)

theorem mem_foldl_step (ss : List RawMaterialSetting) :
    ∀ (m : List (JsNumber × LayerOption)) (e : JsNumber × LayerOption),
      e ∈ ss.foldl thicknessMapStep m →
        e ∈ m ∨ ∃ s ∈ ss, e = (settingTh s, mkLayerOption s) := by
  induction ss with
  | nil => intro m e he; exact Or.inl he
  | cons s ss ih =>
      intro m e he
      rw [List.foldl_cons] at he
      rcases ih _ e he with hm | ⟨s', hs', rfl⟩
      · unfold thicknessMapStep at hm
        split at hm
        · exact Or.inl hm
        · rcases List.mem_append.mp hm with hm | hm
          · exact Or.inl hm
          · rcases List.mem_singleton.mp hm with rfl
            exact Or.inr ⟨s, List.mem_cons_self _ _, rfl⟩
      · exact Or.inr ⟨s', List.mem_cons_of_mem _ hs', rfl⟩

theorem key_mem_foldl_step (ss : List RawMaterialSetting) :
    ∀ (m : List (JsNumber × LayerOption)), ∀ s ∈ ss,
      ∃ e ∈ ss.foldl thicknessMapStep m, nEq e.1 (settingTh s) = true := by
  induction ss with
  | nil => intro m s hs; simp at hs
  | cons s' ss ih =>
      intro m s hs
      rw [List.foldl_cons]
      rcases List.mem_cons.mp hs with rfl | hs
      · by_cases hg : (m.any fun e => nEq e.1 (settingTh s)) = true
        · rcases List.any_eq_true.mp hg with ⟨e, he, hek⟩
          refine ⟨e, foldl_step_sub ss _ e ?_, by simpa using hek⟩
          unfold thicknessMapStep
          rw [if_pos hg]
          exact he
        · refine ⟨(settingTh s, mkLayerOption s), foldl_step_sub ss _ _ ?_, nEq_refl _⟩
          unfold thicknessMapStep
          rw [if_neg hg]
          exact List.mem_append.mpr (Or.inr (List.mem_singleton.mpr rfl))
      · exact ih _ s hs

theorem firstwins_foldl_step (ss : List RawMaterialSetting) :
    ∀ (m : List (JsNumber × LayerOption)) (e : JsNumber × LayerOption),
      e ∈ ss.foldl thicknessMapStep m →
        e ∈ m ∨ ∃ pre s post, ss = pre ++ s :: post ∧ e = (settingTh s, mkLayerOption s) ∧
          (∀ e' ∈ m, nEq e'.1 (settingTh s) = false) ∧
          (∀ s' ∈ pre, nEq (settingTh s') (settingTh s) = false) := by
  induction ss with
  | nil => intro m e he; exact Or.inl he
  | cons s ss ih =>
      intro m e he
      rw [List.foldl_cons] at he
      rcases ih _ e he with hm | ⟨pre, s'', post, hdec, heq, hmfalse, hprefalse⟩
      · unfold thicknessMapStep at hm
        split at hm
        · exact Or.inl hm
        case isFalse hg =>
          rcases List.mem_append.mp hm with hm | hm
          · exact Or.inl hm
          · rcases List.mem_singleton.mp hm with rfl
            refine Or.inr ⟨[], s, ss, rfl, rfl, ?_, by simp⟩
            intro e' he'
            by_contra hne
            exact hg (List.any_eq_true.mpr ⟨e', he', by simpa using hne⟩)
      · refine Or.inr ⟨s :: pre, s'', post, by rw [hdec, List.cons_append], heq, ?_, ?_⟩
        · intro e' he'
          refine hmfalse e' ?_
          unfold thicknessMapStep
          split
          · exact he'
          · exact List.mem_append.mpr (Or.inl he')
        · intro s' hs'
          rcases List.mem_cons.mp hs' with rfl | hs'
          · by_cases hg : (m.any fun e => nEq e.1 (settingTh s')) = true
            · rcases List.any_eq_true.mp hg with ⟨e0, he0, hek⟩
              by_contra hne
              have h1 : nEq e0.1 (settingTh s') = true := by simpa using hek
              have h2 : nEq (settingTh s') (settingTh s'') = true := by
                simpa using Bool.not_eq_false _ ▸ hne
              have h3 : nEq e0.1 (settingTh s'') = true := nEq_trans h1 h2
              have h4 := hmfalse e0 (by
                unfold thicknessMapStep
                rw [if_pos hg]
                exact he0)
              rw [h4] at h3
              exact Bool.false_ne_true h3
            · have hmem : (settingTh s', mkLayerOption s') ∈ thicknessMapStep m s' := by
                unfold thicknessMapStep
                rw [if_neg hg]
                exact List.mem_append.mpr (Or.inr (List.mem_singleton.mpr rfl))
              simpa using hmfalse _ hmem
          · exact hprefalse s' hs'

theorem keys_pairwise_foldl_step (ss : List RawMaterialSetting) :
    ∀ (m : List (JsNumber × LayerOption)),
      m.Pairwise (fun a b => nEq a.1 b.1 = false) →
        (ss.foldl thicknessMapStep m).Pairwise (fun a b => nEq a.1 b.1 = false) := by
  induction ss with
  | nil => intro m hm; exact hm
  | cons s ss ih =>
      intro m hm
      rw [List.foldl_cons]
      refine ih _ ?_
      unfold thicknessMapStep
      split
      · exact hm
      case isFalse hg =>
        rw [List.pairwise_append]
        refine ⟨hm, List.pairwise_singleton _ _, ?_⟩
        intro a ha b hb
        rcases List.mem_singleton.mp hb with rfl
        by_contra hne
        exact hg (List.any_eq_true.mpr ⟨a, ha, by simpa using hne⟩)

theorem find?_pre_first {α : Type} (p : α → Bool) :
    ∀ (pre : List α) (a : α) (post : List α),
      (∀ x ∈ pre, p x = false) → p a = true →
        (pre ++ a :: post).find? p = some a := by
  intro pre a post hpre ha
  induction pre with
  | nil => simp [List.find?_cons, ha]
  | cons x pre ih =>
      have hx : p x = false := hpre x (List.mem_cons_self _ _)
      rw [List.cons_append, List.find?_cons, hx]
      exact ih (fun y hy => hpre y (List.mem_cons_of_mem _ hy))

theorem numLe_total (a b : JsNumber) : numLe a b = true ∨ numLe b a = true := by
  cases a <;> cases b <;> simp [numLe, le_total]

theorem numLe_trans (a b c : JsNumber) (h1 : numLe a b = true) (h2 : numLe b c = true) :
    numLe a c = true := by
  cases a <;> cases b <;> cases c <;> simp_all [numLe]
  exact le_trans h1 h2

theorem nEq_false_symm {a b : JsNumber} (h : nEq a b = false) : nEq b a = false := by
  cases hba : nEq b a with
  | false => rfl
  | true =>
      rw [nEq_symm hba] at h
      exact absurd h (by simp)

theorem thicknessMap_key_eq (ss : List RawMaterialSetting) :
    ∀ e ∈ thicknessMap ss, e.1 = e.2.layerThickness := by
  intro e he
  rcases mem_foldl_step ss [] e he with h | ⟨s, _, rfl⟩
  · simp at h
  · rfl

theorem mem_materialSettings {ss : List RawMaterialSetting} {o : LayerOption} :
    o ∈ materialSettings ss ↔ ∃ e ∈ thicknessMap ss, o = e.2 := by
  rw [materialSettings, mem_isort]
  simp [eq_comm]

/-- C2 (amended): for every raw material, the layer settings are keyed by
the numeric coercion of `layer_thickness_mm` — every surviving option is
built from the first setting whose coerced thickness matches its key,
every setting's coerced thickness is represented by exactly one option,
and distinct options carry SameValueZero-distinct thicknesses; and when
every setting's thickness coerces to a finite number (no NaN), the
surviving options are ordered ascending by thickness.  (On inputs with
both NaN and numeric coerced thicknesses the comparator is inconsistent
and the ascending order can be broken, see the counterexample.) -/
theorem C2_layer_settings (ctp : List (String × List String)) (mat : RawMaterial) :
    (∀ o ∈ (buildMaterial ctp mat).settings, ∃ s,
        mat.material_settings.find? (fun s' => nEq (settingTh s') o.layerThickness) = some s ∧
          o = mkLayerOption s) ∧
    (∀ s ∈ mat.material_settings, ∃ o ∈ (buildMaterial ctp mat).settings,
        nEq o.layerThickness (settingTh s) = true) ∧
    ((buildMaterial ctp mat).settings.Pairwise
        (fun a b => nEq a.layerThickness b.layerThickness = false)) ∧
    ((∀ s ∈ mat.material_settings, settingTh s ≠ .nan) →
      (buildMaterial ctp mat).settings.Pairwise
        (fun a b => ∃ qa qb, a.layerThickness = JsNumber.num qa ∧
          b.layerThickness = JsNumber.num qb ∧ qa ≤ qb)) := by
  have hsets : (buildMaterial ctp mat).settings = materialSettings mat.material_settings := rfl
  refine ⟨?_, ?_, ?_, ?_⟩
  · intro o ho
    rw [hsets, mem_materialSettings] at ho
    rcases ho with ⟨e, he, rfl⟩
    rcases firstwins_foldl_step mat.material_settings [] e he with h | ⟨pre, s, post, hdec, heq, _, hpre⟩
    · simp at h
    · subst heq
      refine ⟨s, ?_, rfl⟩
      rw [hdec]
      exact find?_pre_first _ pre s post (fun x hx => hpre x hx) (nEq_refl _)
  · intro s hs
    rcases key_mem_foldl_step mat.material_settings [] s hs with ⟨e, he, hkey⟩
    refine ⟨e.2, ?_, ?_⟩
    · rw [hsets, mem_materialSettings]
      exact ⟨e, he, rfl⟩
    · rw [← thicknessMap_key_eq mat.material_settings e he]
      exact hkey
  · rw [hsets, materialSettings]
    have hperm := perm_isort (fun a b => layerLe a b) ((thicknessMap mat.material_settings).map (fun e => e.2))
    have hkeys := keys_pairwise_foldl_step mat.material_settings [] (List.Pairwise.nil)
    have hmap : ((thicknessMap mat.material_settings).map (fun e => e.2)).Pairwise
        (fun a b => nEq a.layerThickness b.layerThickness = false) := by
      rw [List.pairwise_map]
      refine hkeys.imp_of_mem ?_
      intro a b ha hb hab
      rw [thicknessMap_key_eq _ a ha, thicknessMap_key_eq _ b hb] at hab
      exact hab
    exact (hperm.pairwise_iff (fun {x y} h => nEq_false_symm h)).mpr hmap
  · intro hnum
    rw [hsets, materialSettings]
    have hnumeric : ∀ o ∈ (thicknessMap mat.material_settings).map (fun e => e.2),
        ∃ q, o.layerThickness = JsNumber.num q := by
      intro o ho
      rcases List.mem_map.mp ho with ⟨e, he, rfl⟩
      rcases mem_foldl_step mat.material_settings [] e he with h | ⟨s, hs, rfl⟩
      · simp at h
      · have : settingTh s ≠ .nan := hnum s hs
        cases hth : settingTh s with
        | num q => exact ⟨q, by rw [show (mkLayerOption s).layerThickness = settingTh s from rfl, hth]⟩
        | nan => exact absurd hth this
    have hcongr : isort (fun a b => layerLe a b) ((thicknessMap mat.material_settings).map (fun e => e.2))
        = isort (fun a b => numLe a.layerThickness b.layerThickness)
            ((thicknessMap mat.material_settings).map (fun e => e.2)) := by
      refine isort_congr _ _ _ ?_
      intro a ha b hb
      rcases hnumeric a ha with ⟨qa, hqa⟩
      rcases hnumeric b hb with ⟨qb, hqb⟩
      rw [layerLe, thickLe.eq_def, hqa, hqb, numLe.eq_def]
    rw [hcongr]
    have hpw := pairwise_isort (fun a b => numLe a.layerThickness b.layerThickness)
      (fun a b => numLe_total _ _) (fun a b c => numLe_trans _ _ _)
      ((thicknessMap mat.material_settings).map (fun e => e.2))
    refine hpw.imp_of_mem ?_
    intro a b ha hb hab
    have ha' := hnumeric a (mem_isort.mp ha)
    have hb' := hnumeric b (mem_isort.mp hb)
    rcases ha' with ⟨qa, hqa⟩
    rcases hb' with ⟨qb, hqb⟩
    rw [hqa, hqb] at hab
    simp only [numLe, decide_eq_true_eq] at hab
    exact ⟨qa, qb, hqa, hqb, hab⟩

/-- Counterexample to C2 as stated: with a NaN-coercing thickness between
two numeric ones the surviving layer options are not ordered ascending by
thickness — the option at thickness 3 precedes the option at thickness 1. -/
theorem C2_layer_settings_counterexample :
    ((buildMaterial [] matMixed).settings.map (fun o => o.layerThickness))
        = [.num 3, .nan, .num 1] ∧
      ¬ ((buildMaterial [] matMixed).settings.Pairwise
          (fun a b => thickLe a.layerThickness b.layerThickness = true)) := by
  constructor
  · rfl
  · decide

/-- Witness for C2 at a concrete all-numeric material: the options come
out ascending. -/
theorem C2_layer_settings_witness :
    ((buildMaterial [] matDup).settings.Pairwise
      (fun a b => ∃ qa qb, a.layerThickness = JsNumber.num qa ∧
        b.layerThickness = JsNumber.num qb ∧ qa ≤ qb)) :=
  (C2_layer_settings [] matDup).2.2.2 (by decide)

theorem foldl_step_allnan (ss : List RawMaterialSetting) :
    ∀ (m : List (JsNumber × LayerOption)),
      (m.any fun e => nEq e.1 JsNumber.nan) = true →
      (∀ s ∈ ss, settingTh s = .nan) →
        ss.foldl thicknessMapStep m = m := by
  induction ss with
  | nil => intro m _ _; rfl
  | cons s ss ih =>
      intro m hm hss
      rw [List.foldl_cons]
      have hstep : thicknessMapStep m s = m := by
        unfold thicknessMapStep
        rw [hss s (List.mem_cons_self _ _), if_pos hm]
      rw [hstep]
      exact ih m hm (fun s' hs' => hss s' (List.mem_cons_of_mem _ hs'))

/-- C9: a raw material all of whose settings have a thickness coercing to
NaN is normalized to exactly one layer option, built from the first
setting, because the Map's SameValueZero key equality makes NaN keys
collide. -/
theorem C9_nan_collapse (ctp : List (String × List String)) (mat : RawMaterial)
    (hne : mat.material_settings ≠ [])
    (hnan : ∀ s ∈ mat.material_settings, settingTh s = .nan) :
    ∃ s0, mat.material_settings.head? = some s0 ∧
      (buildMaterial ctp mat).settings = [mkLayerOption s0] := by
  cases h : mat.material_settings with
  | nil => exact absurd h hne
  | cons s0 rest =>
      refine ⟨s0, rfl, ?_⟩
      have hsets : (buildMaterial ctp mat).settings = materialSettings mat.material_settings := rfl
      rw [hsets, h, materialSettings, thicknessMap, List.foldl_cons]
      have h0 : settingTh s0 = .nan := hnan s0 (h ▸ List.mem_cons_self _ _)
      have hstep0 : thicknessMapStep [] s0 = [(settingTh s0, mkLayerOption s0)] := by
        unfold thicknessMapStep
        rw [if_neg (by simp)]
        rfl
      rw [hstep0, foldl_step_allnan rest _ (by simp [h0, nEq]) ?_]
      · rfl
      · intro s' hs'
        exact hnan s' (h ▸ List.mem_cons_of_mem _ hs')

/-- Witness for C9: both unparseable settings collapse into the single
option built from the first one. -/
theorem C9_nan_collapse_witness :
    (buildMaterial [] matAllNaN).settings
      = [mkLayerOption ⟨"a", ⟨"F4", "X", .strNaN "x"⟩⟩] := by
  obtain ⟨s0, hs0, hset⟩ := C9_nan_collapse [] matAllNaN (by decide) (by decide)
  have h0 : s0 = ⟨"a", ⟨"F4", "X", .strNaN "x"⟩⟩ := by
    have : matAllNaN.material_settings.head?
        = some (⟨"a", ⟨"F4", "X", .strNaN "x"⟩⟩ : RawMaterialSetting) := rfl
    rw [this] at hs0
    exact (Option.some.inj hs0).symm
  rw [h0] at hset
  exact hset

/-- C10: each layer option (its id and exported scene) is built from its
own originating setting, while the material's identity code (and hence its
breadcrumbs, looked up under that code) comes from the first setting only;
on a material whose settings disagree on `material_code`, an exported
payload's code differs from the material's identity code. -/
theorem C10_option_vs_identity :
    (∀ (ctp : List (String × List String)) (mat : RawMaterial),
      (buildMaterial ctp mat).code
          = (match mat.material_settings.head? with
             | some first => first.scene_settings.material_code
             | none => mat.label) ∧
        (buildMaterial ctp mat).categoryPaths
          = (lookupA ctp (buildMaterial ctp mat).code).getD [] ∧
        (∀ o ∈ (buildMaterial ctp mat).settings, ∃ s ∈ mat.material_settings,
          o = mkLayerOption s ∧
          o.scene.material_code = s.scene_settings.material_code ∧
          o.id = s.scene_settings.material_code ++ "-" ++ numToString (settingTh s))) ∧
    ((buildMaterial [] matDiff).code = "A" ∧
      ∃ o ∈ (buildMaterial [] matDiff).settings, o.scene.material_code = "B") := by
  constructor
  · intro ctp mat
    refine ⟨rfl, rfl, ?_⟩
    intro o ho
    rw [show (buildMaterial ctp mat).settings = materialSettings mat.material_settings from rfl,
      mem_materialSettings] at ho
    rcases ho with ⟨e, he, rfl⟩
    rcases mem_foldl_step mat.material_settings [] e he with h | ⟨s, hs, rfl⟩
    · simp at h
    · exact ⟨s, hs, rfl, rfl, rfl⟩
  · exact ⟨rfl, by decide⟩

/-- Witness for C10: the second option of the two-code material is built
from its own setting. -/
theorem C10_option_vs_identity_witness :
    ∃ s ∈ matDiff.material_settings,
      (mkLayerOption ⟨"200", ⟨"F4", "B", .num 2⟩⟩ : LayerOption) = mkLayerOption s ∧
      (mkLayerOption ⟨"200", ⟨"F4", "B", .num 2⟩⟩ : LayerOption).scene.material_code
          = s.scene_settings.material_code ∧
      (mkLayerOption ⟨"200", ⟨"F4", "B", .num 2⟩⟩ : LayerOption).id
          = s.scene_settings.material_code ++ "-" ++ numToString (settingTh s) :=
  ((C10_option_vs_identity.1 [] matDiff).2.2) (mkLayerOption ⟨"200", ⟨"F4", "B", .num 2⟩⟩)
    (List.Mem.tail _ (List.Mem.head _))

/-- C3: after the repair effects run, the selected material code is a
member of the filtered list (or empty), a still-valid selection is kept,
and an invalid one falls back to the first filtered material (empty when
none); likewise the selected thickness matches a layer option of the
selected material by exact value (or is empty), is kept when still valid,
and otherwise falls back to the first option's thickness. -/
theorem C3_selection_repair :
    (∀ (printer : Option PrinterOption) (ids : List String)
        (cm : List (String × List String)) (sel : String),
      ((∃ m ∈ filteredMaterials printer ids cm,
          m.code = repairMaterialCode printer (filteredMaterials printer ids cm) sel) ∨
        repairMaterialCode printer (filteredMaterials printer ids cm) sel = "") ∧
      ((∃ m ∈ filteredMaterials printer ids cm, m.code = sel) → printer ≠ none →
        repairMaterialCode printer (filteredMaterials printer ids cm) sel = sel) ∧
      (¬ (∃ m ∈ filteredMaterials printer ids cm, m.code = sel) →
        repairMaterialCode printer (filteredMaterials printer ids cm) sel
          = (((filteredMaterials printer ids cm).head?).map (fun m => m.code)).getD "")) ∧
    (∀ (matOpt : Option MaterialOption) (sel : String),
      ((∃ m, matOpt = some m ∧ ∃ o ∈ m.settings,
          numToString o.layerThickness = repairThickness matOpt sel) ∨
        repairThickness matOpt sel = "") ∧
      (∀ m, matOpt = some m → (∃ o ∈ m.settings, numToString o.layerThickness = sel) →
        repairThickness matOpt sel = sel) ∧
      (∀ m, matOpt = some m → ¬ (∃ o ∈ m.settings, numToString o.layerThickness = sel) →
        repairThickness matOpt sel
          = ((m.settings.head?).map (fun o => numToString o.layerThickness)).getD "")) := by
  constructor
  · intro printer ids cm sel
    cases printer with
    | none =>
        refine ⟨Or.inr rfl, ?_, ?_⟩
        · intro _ hne
          exact absurd rfl hne
        · intro hno
          simp [filteredMaterials, repairMaterialCode]
    | some p =>
        by_cases hex : (filteredMaterials (some p) ids cm).any
            (fun m => m.code == sel) = true
        · have hsel : repairMaterialCode (some p) (filteredMaterials (some p) ids cm) sel
              = sel := by
            rw [repairMaterialCode, if_pos hex]
          refine ⟨?_, fun _ _ => hsel, ?_⟩
          · rcases List.any_eq_true.mp hex with ⟨m, hm, hcode⟩
            exact Or.inl ⟨m, hm, by rw [hsel]; simpa using hcode⟩
          · intro hno
            exfalso
            rcases List.any_eq_true.mp hex with ⟨m, hm, hcode⟩
            exact hno ⟨m, hm, by simpa using hcode⟩
        · have hrep : repairMaterialCode (some p) (filteredMaterials (some p) ids cm) sel
              = (((filteredMaterials (some p) ids cm).head?).map (fun m => m.code)).getD "" := by
            rw [repairMaterialCode, if_neg hex]
          refine ⟨?_, ?_, fun _ => hrep⟩
          · cases hh : (filteredMaterials (some p) ids cm).head? with
            | none => exact Or.inr (by rw [hrep, hh]; rfl)
            | some m =>
                refine Or.inl ⟨m, ?_, by rw [hrep, hh]; rfl⟩
                exact List.mem_of_mem_head? hh
          · intro hcontra _
            exfalso
            rcases hcontra with ⟨m, hm, hcode⟩
            exact hex (List.any_eq_true.mpr ⟨m, hm, by simpa using hcode⟩)
  · intro matOpt sel
    cases matOpt with
    | none => exact ⟨Or.inr rfl, by simp, by simp⟩
    | some m =>
        by_cases hex : (m.settings.any fun o => numToString o.layerThickness == sel) = true
        · have hsel : repairThickness (some m) sel = sel := by
            rw [repairThickness, if_pos hex]
          refine ⟨?_, fun m' hm' _ => by cases hm'; exact hsel, ?_⟩
          · rcases List.any_eq_true.mp hex with ⟨o, ho, hth⟩
            exact Or.inl ⟨m, rfl, o, ho, by rw [hsel]; simpa using hth⟩
          · intro m' hm' hno
            cases hm'
            exact absurd (by
              rcases List.any_eq_true.mp hex with ⟨o, ho, hth⟩
              exact ⟨o, ho, by simpa using hth⟩) hno
        · have hrep : repairThickness (some m) sel
              = ((m.settings.head?).map (fun o => numToString o.layerThickness)).getD "" := by
            rw [repairThickness, if_neg hex]
            cases hh : m.settings.head? <;> simp [hh]
          refine ⟨?_, ?_, fun m' hm' _ => by cases hm'; exact hrep⟩
          · cases hh : m.settings.head? with
            | none => exact Or.inr (by rw [hrep, hh]; rfl)
            | some o =>
                refine Or.inl ⟨m, rfl, o, List.mem_of_mem_head? hh, by rw [hrep, hh]; rfl⟩
          · intro m' hm' hyes
            cases hm'
            exfalso
            rcases hyes with ⟨o, ho, hth⟩
            exact hex (List.any_eq_true.mpr ⟨o, ho, by simpa using hth⟩)

/-- Witness for C3: an invalid selected code is repaired to the first
filtered material's code. -/
theorem C3_selection_repair_witness :
    repairMaterialCode (some printerP)
        (filteredMaterials (some printerP) [] []) "zzz" = "X" := by
  have h := (C3_selection_repair.1 (some printerP) [] [] "zzz").2.2 (by decide)
  exact h

/-- C6: the exported settings object has exactly the three fields
`machine_type`, `material_code`, `layer_thickness_mm` in that order, and
reading the serialized object back (modelled at the level of the JSON
value `JSON.parse` returns) yields the original three field values
unchanged; the payload is the 2-space pretty-printing of that object, as
the concrete example shows. -/
theorem C6_payload_roundtrip :
    (∀ scene : Scene,
      copyScenePayload scene = stringify2 (sceneToJson scene) ∧
      jsonFieldNames (sceneToJson scene)
          = ["machine_type", "material_code", "layer_thickness_mm"] ∧
      jsonLookup (sceneToJson scene) "machine_type" = some (.jStr scene.machine_type) ∧
      jsonLookup (sceneToJson scene) "material_code" = some (.jStr scene.material_code) ∧
      jsonLookup (sceneToJson scene) "layer_thickness_mm"
          = some (jsonOfJsVal scene.layer_thickness_mm)) ∧
    copyScenePayload ⟨"FORM4", "X", .num 3⟩
      = "\x7b\n  \"machine_type\": \"FORM4\",\n  \"material_code\": \"X\",\n  \"layer_thickness_mm\": 3\n\x7d" :=
  ⟨fun _ => ⟨rfl, rfl, rfl, rfl, rfl⟩, rfl⟩

theorem mem_union_fold (ids : List String) (cm : List (String × List String)) :
    ∀ (acc : List String) (x : String),
      x ∈ ids.foldl (fun acc i => ((lookupA cm i).getD []).foldl addLabel acc) acc
        ↔ x ∈ acc ∨ ∃ i ∈ ids, x ∈ (lookupA cm i).getD [] := by
  induction ids with
  | nil => simp
  | cons i ids ih =>
      intro acc x
      rw [List.foldl_cons, ih, foldl_addLabel_mem]
      simp only [List.mem_cons]
      constructor
      · rintro ((h | h) | ⟨j, hj, hx⟩)
        · exact Or.inl h
        · exact Or.inr ⟨i, Or.inl rfl, h⟩
        · exact Or.inr ⟨j, Or.inr hj, hx⟩
      · rintro (h | ⟨j, (rfl | hj), hx⟩)
        · exact Or.inl (Or.inl h)
        · exact Or.inl (Or.inr hx)
        · exact Or.inr ⟨j, hj, hx⟩

/-- C4: with no category filters the filtered list is the printer's full
material list; with filters selected it is exactly the printer's materials
whose code lies in the union of the selected ids' aggregated-code sets —
an OR across filters. -/
theorem C4_filtered_materials (p : PrinterOption) (ids : List String)
    (cm : List (String × List String)) :
    (ids = [] → filteredMaterials (some p) ids cm = p.materials) ∧
    (ids ≠ [] → ∀ m, m ∈ filteredMaterials (some p) ids cm ↔
      m ∈ p.materials ∧ ∃ i ∈ ids, m.code ∈ (lookupA cm i).getD []) := by
  constructor
  · intro h
    subst h
    rfl
  · intro hne m
    rw [filteredMaterials]
    rw [if_neg (by simpa using hne)]
    rw [List.mem_filter]
    constructor
    · rintro ⟨hm, hcode⟩
      refine ⟨hm, ?_⟩
      have := (mem_union_fold ids cm [] m.code).mp (by simpa using hcode)
      simpa using this
    · rintro ⟨hm, hex⟩
      refine ⟨hm, ?_⟩
      have := (mem_union_fold ids cm [] m.code).mpr (Or.inr hex)
      simpa using this

/-- Witness for C4 (scenario C): with two disjoint leaf filters selected,
a material matching only the second filter is in the filtered list — the
filters combine as an OR. -/
theorem C4_filtered_materials_witness :
    matY ∈ filteredMaterials (some printerP) ["a", "b"]
      (flattenCategoryCodes (buildCategoryTree
        (.obj [("a", .arr [.str "X"]), ("b", .arr [.str "Y"])]) [])) :=
  ((C4_filtered_materials printerP ["a", "b"]
      (flattenCategoryCodes (buildCategoryTree
        (.obj [("a", .arr [.str "X"]), ("b", .arr [.str "Y"])]) []))).2
    (by decide) matY).mpr
    ⟨List.Mem.tail _ (List.Mem.head _), "b", List.Mem.tail _ (List.Mem.head _), by decide⟩

theorem mem_objSet {α : Type} :
    ∀ (m : List (String × α)) (k : String) (v : α) (e : String × α),
      e ∈ objSet m k v → e ∈ m ∨ e = (k, v) := by
  intro m k v
  induction m with
  | nil =>
      intro e he
      rw [objSet] at he
      exact Or.inr (List.mem_singleton.mp he)
  | cons x rest ih =>
      intro e he
      rw [objSet] at he
      split at he
      · rcases List.mem_cons.mp he with rfl | he
        · exact Or.inr rfl
        · exact Or.inl (List.mem_cons_of_mem _ he)
      · rcases List.mem_cons.mp he with rfl | he
        · exact Or.inl (List.mem_cons_self _ _)
        · rcases ih e he with h | h
          · exact Or.inl (List.mem_cons_of_mem _ h)
          · exact Or.inr h

theorem mem_flattenVisit :
    ∀ (m : List (String × List String)) (ns : List CategoryNode),
      ∀ e ∈ flattenVisit m ns, e ∈ m ∨ ∃ n ∈ subnodes ns, e = (n.id, n.codes) := by
  refine flattenVisit.induct
    (fun m ns => ∀ e ∈ flattenVisit m ns, e ∈ m ∨ ∃ n ∈ subnodes ns, e = (n.id, n.codes))
    (fun m n => ∀ e ∈ flattenNode m n, e ∈ m ∨ ∃ nn ∈ subtree n, e = (nn.id, nn.codes))
    ?_ ?_ ?_
  · intro m i label c ownCodes ch ih e he
    rw [flattenNode] at he
    rcases ih e he with h | ⟨n, hn, rfl⟩
    · rcases mem_objSet m i c e h with h | rfl
      · exact Or.inl h
      · refine Or.inr ⟨.mk i label c ownCodes ch, self_mem_subtree _, rfl⟩
    · refine Or.inr ⟨n, ?_, rfl⟩
      rw [subtree_mk]
      exact List.mem_cons_of_mem _ hn
  · intro m e he
    exact Or.inl he
  · intro m n rest ih1 ih2 e he
    rw [flattenVisit] at he
    rcases ih2 e he with h | ⟨nn, hnn, rfl⟩
    · rcases ih1 e h with h' | ⟨nn, hnn, rfl⟩
      · exact Or.inl h'
      · refine Or.inr ⟨nn, ?_, rfl⟩
        rw [subnodes_cons]
        exact List.mem_append.mpr (Or.inl hnn)
    · refine Or.inr ⟨nn, ?_, rfl⟩
      rw [subnodes_cons]
      exact List.mem_append.mpr (Or.inr hnn)

theorem filter_mem_length_symm {l1 l2 : List String} (h1 : l1.Nodup) (h2 : l2.Nodup) :
    (l1.filter (fun c => decide (c ∈ l2))).length
      = (l2.filter (fun c => decide (c ∈ l1))).length := by
  have e1 : (l1.filter (fun c => decide (c ∈ l2))).toFinset = l1.toFinset ∩ l2.toFinset := by
    ext a
    simp [List.mem_filter]
  have e2 : (l2.filter (fun c => decide (c ∈ l1))).toFinset = l2.toFinset ∩ l1.toFinset := by
    ext a
    simp [List.mem_filter]
  have c1 := List.toFinset_card_of_nodup (h1.filter (fun c => decide (c ∈ l2)))
  have c2 := List.toFinset_card_of_nodup (h2.filter (fun c => decide (c ∈ l1)))
  rw [← c1, ← c2, e1, e2, Finset.inter_comm]

/-- C7 (amended): every derived category-count entry counts the distinct
material codes of the selected printer that occur in that category's
aggregated-code set; when the printer's material codes are pairwise
distinct this equals the number of materials whose code is in the set (the
claim as stated), but two materials sharing a code are counted once. -/
theorem C7_category_counts (t : TaxVal) (p : PrinterOption) :
    ∀ e ∈ categoryCounts (some p) (flattenCategoryCodes (buildCategoryTree t [])),
      ∃ codes, (e.1, codes) ∈ flattenCategoryCodes (buildCategoryTree t []) ∧
        e.2 = (codes.filter (fun c => decide (c ∈ p.materials.map (fun m => m.code)))).length ∧
        ((p.materials.map (fun m => m.code)).Nodup →
          e.2 = (p.materials.filter (fun m => decide (m.code ∈ codes))).length) := by
  intro e he
  rw [categoryCounts] at he
  rcases List.mem_map.mp he with ⟨e0, he0, rfl⟩
  refine ⟨e0.2, he0, ?_, ?_⟩
  · dsimp only
    refine congrArg List.length (List.filter_congr ?_)
    intro c _
    simp [foldl_addLabel_mem]
  · intro hnd
    dsimp only
    have hcodes : e0.2.Nodup := by
      rcases mem_flattenVisit [] _ e0 he0 with h | ⟨n, hn, heq⟩
      · simp at h
      · have := (tree_wf t [] n hn).1
        rw [heq]
        exact this
    have hfix : ((e0.2.filter (fun c =>
        ((p.materials.map (fun m => m.code)).foldl addLabel []).contains c))).length
        = (e0.2.filter (fun c => decide (c ∈ p.materials.map (fun m => m.code)))).length := by
      refine congrArg List.length (List.filter_congr ?_)
      intro c _
      simp [foldl_addLabel_mem]
    rw [hfix, filter_mem_length_symm hcodes hnd]
    rw [← List.countP_eq_length_filter, ← List.countP_eq_length_filter, List.countP_map]
    rfl

/-- Counterexample to C7 as stated: for a printer with two materials
sharing the code "X" and the category whose aggregated codes are ["X"],
the derived count is 1 while the number of the printer's materials whose
code is in the category's aggregated-code set is 2. -/
theorem C7_category_counts_counterexample :
    ∃ p ∈ buildPrinters dataDupe (buildCodeToCategoryPaths (buildCategoryTree taxX [])),
      ∃ e ∈ categoryCounts (some p) (flattenCategoryCodes (buildCategoryTree taxX [])),
        e.2 = 1 ∧
        (p.materials.filter (fun m => decide (m.code ∈
          ((lookupA (flattenCategoryCodes (buildCategoryTree taxX [])) e.1).getD [])))).length
          = 2 := by
  decide

/-- Witness for C7 at a printer with distinct material codes: the count
for category "a" is the number of matching materials. -/
theorem C7_category_counts_witness :
    ∃ codes, (("a", codes) : String × List String)
          ∈ flattenCategoryCodes (buildCategoryTree tax2 []) ∧
      (("a", 1) : String × Nat).2
          = (codes.filter (fun c => decide (c ∈ printerP.materials.map (fun m => m.code)))).length ∧
      ((printerP.materials.map (fun m => m.code)).Nodup →
        (("a", 1) : String × Nat).2
          = (printerP.materials.filter (fun m => decide (m.code ∈ codes))).length) :=
  C7_category_counts tax2 printerP ("a", 1) (List.Mem.head _)
